import Mathlib

/-!
Verification of the xpmem / POSIX-shm benchmark suite.

This development gives a shallow embedding of the benchmark programs
(src/common.h, src/shm_bench.c, src/xpmem_importer.c, src/xpmem_exporter.c)
and proves the specified properties about them.

Modelling conventions:
- a byte buffer is a total map from offsets to byte values (Nat → Nat);
- machine sizes and indices are Nat (the C code never overflows size_t here);
- the C double values handled by print_summary are modelled as exact
  rationals, idealising IEEE arithmetic;
- the two processes of shm_bench are modelled by an explicit small-step
  transition relation on a joint state; each busy-wait loop is modelled as a
  single guarded transition that fires when the awaited condition holds
  (spin iterations that observe an unchanged shared state are stutters).
-/

/- ========== common.h : pattern fill / verify ========== -/

/-- One byte of the test pattern: common.h stores p[i] = (uint8_t)(i & 0xFF),
which is the low byte of the index, i.e. i mod 256. -/
def byteAt (i : Nat) : Nat := i % 256

/-- Embedding of fill_pattern (common.h, lines 78-84): writes byteAt i at every
offset i < size of the buffer and leaves the rest of memory unchanged. -/
def fill_pattern (buf : Nat → Nat) (size : Nat) : Nat → Nat :=
  fun i => if i < size then byteAt i else buf i

/-- The loop of verify_pattern, starting at offset i with fuel bytes still to
check: returns i + 1 at the first offset whose byte differs from the pattern,
and 0 when the remaining bytes all match. -/
def verifyFrom (buf : Nat → Nat) (i : Nat) : Nat → Nat
  | 0 => 0
  | fuel + 1 => if buf i ≠ byteAt i then i + 1 else verifyFrom buf (i + 1) fuel

/-- Embedding of verify_pattern (common.h, lines 87-95): 0 on success,
otherwise 1 + the offset of the first mismatching byte. -/
def verify_pattern (buf : Nat → Nat) (size : Nat) : Nat :=
  verifyFrom buf 0 size

/- ========== common.h : size table and repeat count ========== -/

/-- Embedding of TEST_SIZES (common.h, lines 26-35). -/
def TEST_SIZES : List Nat :=
  [4 * 1024, 64 * 1024, 1024 * 1024, 16 * 1024 * 1024, 64 * 1024 * 1024,
   256 * 1024 * 1024, 512 * 1024 * 1024, 1024 * 1024 * 1024]

/-- Embedding of NUM_TEST_SIZES (common.h, line 36). -/
def NUM_TEST_SIZES : Nat := TEST_SIZES.length

/-- Embedding of REPEAT_COUNT (common.h, line 39). -/
def REPEAT_COUNT : Nat := 5

/- ========== the per-benchmark size loop ========== -/

/-- Embedding of the outer size loop shared by all benchmarks
(shm_bench.c 116-118, xpmem_importer.c 32-34, 78-80, 129-131): walk the
table in order and break at the first entry exceeding the capacity cap;
the result is the list of sizes actually run. -/
def runSizes : List Nat → Nat → List Nat
  | [], _ => []
  | s :: rest, cap => if s > cap then [] else s :: runSizes rest cap

/-- All per-cycle transfer requests a benchmark issues against a region of
capacity cap: each size that is run is requested REPEAT_COUNT times
(the inner repeat loop). -/
def reqsOf (l : List Nat) (cap : Nat) : List Nat :=
  (runSizes l cap).flatMap (fun s => List.replicate REPEAT_COUNT s)

/-- The request list of an actual benchmark, driven by TEST_SIZES. -/
def sizeRequests (cap : Nat) : List Nat := reqsOf TEST_SIZES cap

/- ========== xpmem_importer.c : direct (zero-copy) traversal ========== -/

/-- Word count of the direct traversal (xpmem_importer.c line 87):
count = size / sizeof(uint64_t). -/
def directWords (size : Nat) : Nat := size / 8

/-- Bytes actually read by the 64-bit word loop of bench_xpmem_direct
(xpmem_importer.c lines 92-94): count words of 8 bytes each. -/
def directBytesRead (size : Nat) : Nat := directWords size * 8

/- ========== common.h : print_summary ========== -/

/-- The four numbers print_summary (common.h, lines 134-151) reports for one
size: mean elapsed, mean bandwidth, minimum and maximum elapsed. C doubles
are modelled as exact rationals. -/
structure SummaryOut where
  avg_t : ℚ
  avg_bw : ℚ
  min_t : ℚ
  max_t : ℚ
deriving DecidableEq

/-- Value-level embedding of print_summary (common.h, lines 140-150), over the
count elapsed samples given as a list: min_t and max_t start from times[0]
and are folded over the whole array, sum_t accumulates from 0, avg_t is
sum / count and avg_bw is size / avg_t in 1024-based GB/s. The single C
loop updating min, max and sum together is split into three folds computing
the same values. -/
def print_summary (size : Nat) (times : List ℚ) : SummaryOut :=
  let t0 := times.headD 0
  let min_t := times.foldl (fun m t => if t < m then t else m) t0
  let max_t := times.foldl (fun m t => if m < t then t else m) t0
  let sum_t := times.foldl (fun a t => a + t) 0
  let avg_t := sum_t / (times.length : ℚ)
  let avg_bw := (size : ℚ) / avg_t / (1024 * 1024 * 1024)
  ⟨avg_t, avg_bw, min_t, max_t⟩

/-- The loop of print_summary with every array access bounds-checked: reading
times[i] fails when i is out of range of the array. The accumulator carries
(min_t, max_t, sum_t) exactly as the C loop body updates them. -/
def summaryLoop (times : List ℚ) : (ℚ × ℚ × ℚ) → List Nat → Option (ℚ × ℚ × ℚ)
  | acc, [] => some acc
  | (mn, mx, sm), i :: rest =>
    match times[i]? with
    | none => none
    | some t =>
      summaryLoop times (if t < mn then t else mn, if mx < t then t else mx, sm + t) rest

/-- Bounds-checked embedding of print_summary over an explicit array and
element count: the initial read times[0], every loop read times[i] for
i < count, and the final division by count are guarded; the result is none
exactly when some access is out of bounds or the division is by zero. -/
def print_summary_chk (size : Nat) (times : List ℚ) (count : Nat) :
    Option SummaryOut :=
  match times[0]? with
  | none => none
  | some t0 =>
    match summaryLoop times (t0, t0, 0) (List.range count) with
    | none => none
    | some (mn, mx, sm) =>
      if count = 0 then none
      else some ⟨sm / (count : ℚ),
        (size : ℚ) / (sm / (count : ℚ)) / (1024 * 1024 * 1024), mn, mx⟩

/- ========== xpmem_importer.c : startup and output events ========== -/

/-- The kinds of console output the importer produces: a diagnostic on the
error stream, an informational stdout line, or one benchmark result row
(a print_result or print_summary line). -/
inductive Ev where
  | errDiag
  | infoLine
  | benchRow
deriving DecidableEq

/-- The benchmark rows the importer prints once setup succeeded: each of the
three benchmarks (xpmem memcpy, xpmem direct, local memcpy) prints one row
per request plus one summary row per size run. -/
def bench_rows (cap : Nat) : List Ev :=
  (List.replicate 3 (sizeRequests cap)).flatMap (fun reqs =>
    reqs.map (fun _ => Ev.benchRow) ++
      (runSizes TEST_SIZES cap).map (fun _ => Ev.benchRow))

/-- The environment the importer main runs against: the descriptor file
(none when fopen fails, otherwise the number of fields fscanf matched
together with the three parsed values), and whether xpmem_get,
xpmem_attach and the local allocation succeed. -/
structure ImporterWorld where
  descriptor : Option (Nat × Int × Nat × Int)
  getOk : Bool
  attachOk : Bool
  allocOk : Bool

/-- Embedding of the importer main (xpmem_importer.c, lines 153-254):
startup checks in program order, each failure printing an error-stream
diagnostic and exiting with status 1; once all checks pass, the benchmark
rows are printed and the process exits with status 0. The result is the
exit status together with the ordered console output. -/
def importer_main (w : ImporterWorld) : Nat × List Ev :=
  match w.descriptor with
  | none => (1, [Ev.infoLine, Ev.errDiag])
  | some (matched, _segid, maxSize, _pid) =>
    if matched ≠ 3 then (1, [Ev.infoLine, Ev.errDiag])
    else if ¬ w.getOk then (1, [Ev.infoLine, Ev.errDiag])
    else if ¬ w.attachOk then (1, [Ev.infoLine, Ev.errDiag])
    else if ¬ w.allocOk then (1, [Ev.infoLine, Ev.errDiag])
    else (0, [Ev.infoLine] ++ bench_rows maxSize ++ [Ev.infoLine])

/- ========== the per-repeat verification schedule ========== -/

/-- The actions of one repeat body that matter to the verification
schedule. -/
inductive Act where
  | clearBuf
  | copyData
  | sumWords
  | verifyCall
  | reportRow
  | consumeVerify
deriving DecidableEq

/-- Body of one repeat of bench_xpmem_memcpy (xpmem_importer.c, lines 38-63):
clear the local buffer, timed memcpy, print the row, and a verify_pattern
call only when r = 0. -/
def xpmem_cpy_repeat (r : Nat) : List Act :=
  [Act.clearBuf, Act.copyData, Act.reportRow] ++
    (if r = 0 then [Act.verifyCall] else [])

/-- Body of one handled request cycle of the shm_bench child (shm_bench.c,
lines 92-104): clear the local buffer, timed memcpy, then an unconditional
verify_pattern call whose result is written to the control record. The body
does not depend on the repeat index. -/
def shm_child_cycle : List Act :=
  [Act.clearBuf, Act.copyData, Act.verifyCall]

/-- Per-repeat consumption on the shm_bench parent side (shm_bench.c, lines
135-147): print the row, and read ctrl.verify_err only when r = 0. -/
def shm_parent_repeat (r : Nat) : List Act :=
  [Act.reportRow] ++ (if r = 0 then [Act.consumeVerify] else [])

/-- Body of one repeat of bench_xpmem_direct (xpmem_importer.c, lines 84-102):
sum the words, print the row; no verification. -/
def xpmem_dir_repeat : List Act :=
  [Act.sumWords, Act.reportRow]

/-- Body of one repeat of bench_local_memcpy (xpmem_importer.c, lines
135-144): clear, timed memcpy, print the row; no verification. -/
def local_cpy_repeat : List Act :=
  [Act.clearBuf, Act.copyData, Act.reportRow]

/-- All actions the shm_bench child performs for one size (REPEAT_COUNT
handled cycles). -/
def shm_child_size_trace : List Act :=
  (List.range REPEAT_COUNT).flatMap (fun _ => shm_child_cycle)

/- ========== shm_bench.c : the two-process protocol ========== -/

/-- The shared control record of shm_bench (shm_control_t, shm_bench.c lines
18-24). copy_time, a C double, is modelled as an opaque natural number of
clock ticks; its value never influences control flow. -/
structure CtrlState where
  phase : Nat
  data_size : Nat
  iteration : Nat
  copy_time : Nat
  verify_err : Nat
deriving DecidableEq

/-- Index into TEST_SIZES as the C code reads it (TEST_SIZES[si]). -/
def sizeAt (si : Nat) : Nat := TEST_SIZES.getD si 0

/-- max_size of shm_bench (line 32): the last table entry. -/
def shm_max_size : Nat := sizeAt (NUM_TEST_SIZES - 1)

/-- Program locations of the parent (requester) process of shm_bench, lines
110-156. Each location names the last shared-memory action of the current
cycle already performed; the readTime and readVerify locations also record
the value the parent read. -/
inductive PLoc where
  | sizeCheck (si : Nat)
  | startCycle (si r : Nat)
  | wroteSize (si r : Nat)
  | wroteIter (si r : Nat)
  | posted (si r : Nat)
  | readTime (si r t : Nat)
  | readVerify (si r t v : Nat)
  | finalSize
  | finalPosted
  | joined
deriving DecidableEq

/-- Program locations of the child (responder) process of shm_bench, lines
77-108, recording the size it read and the values it wrote. -/
inductive CLoc where
  | waiting
  | gotSize (sz : Nat)
  | wroteTime (sz t : Nat)
  | wroteVerify (sz t v : Nat)
  | exited
deriving DecidableEq

/-- Joint state of the two shm_bench processes and the shared control
record. The payload region is not modelled; fill_pattern and memcpy touch
only it, so they fold into the adjacent control-record steps. -/
structure Sys where
  ctrl : CtrlState
  parent : PLoc
  child : CLoc
deriving DecidableEq

/-- Where the parent goes after finishing repeat r of size index si (the two
nested for loops of lines 116-151): the next repeat, or past the summary row
to the next size index. -/
def nextCycle (si r : Nat) : PLoc :=
  if r + 1 < REPEAT_COUNT then PLoc.startCycle si (r + 1) else PLoc.sizeCheck (si + 1)

/-- Does this parent location witness a read of ctrl.verify_err in the
current cycle (the r == 0 branch of lines 138-145)? -/
def isVerifyRead : PLoc → Bool
  | PLoc.readVerify _ _ _ _ => true
  | _ => false

/-- Small-step relation of the two shm_bench processes. Each busy-wait is a
single guarded transition that fires when the awaited phase value holds
(spin iterations observing an unchanged shared state are stutters). The
duration t and verify result v the child writes are arbitrary: they depend
on the clock and the unmodelled payload region, which the model treats as
environment. -/
inductive Step : Sys → Sys → Prop where
  | p_enterSize (s : Sys) (si : Nat) :
      s.parent = PLoc.sizeCheck si → si < NUM_TEST_SIZES →
      sizeAt si ≤ shm_max_size →
      Step s { s with parent := PLoc.startCycle si 0 }
  | p_breakSize (s : Sys) (si : Nat) :
      s.parent = PLoc.sizeCheck si → si < NUM_TEST_SIZES →
      shm_max_size < sizeAt si →
      Step s { s with parent := PLoc.finalSize,
                      ctrl := { s.ctrl with data_size := 0 } }
  | p_exitSize (s : Sys) (si : Nat) :
      s.parent = PLoc.sizeCheck si → si = NUM_TEST_SIZES →
      Step s { s with parent := PLoc.finalSize,
                      ctrl := { s.ctrl with data_size := 0 } }
  | p_writeSize (s : Sys) (si r : Nat) :
      s.parent = PLoc.startCycle si r →
      Step s { s with parent := PLoc.wroteSize si r,
                      ctrl := { s.ctrl with data_size := sizeAt si } }
  | p_writeIter (s : Sys) (si r : Nat) :
      s.parent = PLoc.wroteSize si r →
      Step s { s with parent := PLoc.wroteIter si r,
                      ctrl := { s.ctrl with iteration := r } }
  | p_post (s : Sys) (si r : Nat) :
      s.parent = PLoc.wroteIter si r →
      Step s { s with parent := PLoc.posted si r,
                      ctrl := { s.ctrl with phase := 1 } }
  | p_readTime (s : Sys) (si r : Nat) :
      s.parent = PLoc.posted si r → s.ctrl.phase = 2 →
      Step s { s with parent := PLoc.readTime si r s.ctrl.copy_time }
  | p_readVerify (s : Sys) (si t : Nat) :
      s.parent = PLoc.readTime si 0 t →
      Step s { s with parent := PLoc.readVerify si 0 t s.ctrl.verify_err }
  | p_reset0 (s : Sys) (si t v : Nat) :
      s.parent = PLoc.readVerify si 0 t v →
      Step s { s with parent := nextCycle si 0,
                      ctrl := { s.ctrl with phase := 0 } }
  | p_resetLater (s : Sys) (si r t : Nat) :
      s.parent = PLoc.readTime si r t → r ≠ 0 →
      Step s { s with parent := nextCycle si r,
                      ctrl := { s.ctrl with phase := 0 } }
  | p_finalPost (s : Sys) :
      s.parent = PLoc.finalSize →
      Step s { s with parent := PLoc.finalPosted,
                      ctrl := { s.ctrl with phase := 1 } }
  | p_join (s : Sys) :
      s.parent = PLoc.finalPosted → s.child = CLoc.exited →
      Step s { s with parent := PLoc.joined }
  | c_receive (s : Sys) :
      s.child = CLoc.waiting → s.ctrl.phase = 1 →
      Step s { s with child := CLoc.gotSize s.ctrl.data_size }
  | c_exit (s : Sys) :
      s.child = CLoc.gotSize 0 →
      Step s { s with child := CLoc.exited }
  | c_writeTime (s : Sys) (sz t : Nat) :
      s.child = CLoc.gotSize sz → sz ≠ 0 →
      Step s { s with child := CLoc.wroteTime sz t,
                      ctrl := { s.ctrl with copy_time := t } }
  | c_writeVerify (s : Sys) (sz t v : Nat) :
      s.child = CLoc.wroteTime sz t →
      Step s { s with child := CLoc.wroteVerify sz t v,
                      ctrl := { s.ctrl with verify_err := v } }
  | c_respond (s : Sys) (sz t v : Nat) :
      s.child = CLoc.wroteVerify sz t v →
      Step s { s with child := CLoc.waiting,
                      ctrl := { s.ctrl with phase := 2 } }

/-- Initial joint state: the control record is zeroed (memset, line 51), the
parent is at the top of its size loop, the child at its wait loop. -/
def initSys : Sys :=
  { ctrl := ⟨0, 0, 0, 0, 0⟩, parent := PLoc.sizeCheck 0, child := CLoc.waiting }

/-- Reachability from the initial state. -/
def Reach (s : Sys) : Prop := Relation.ReflTransGen Step initSys s

/-- Coupling between the child location and the control record while the
parent has a request posted for size sz0. -/
def ChildInv (s : Sys) (sz0 : Nat) : Prop :=
  match s.child with
  | CLoc.waiting => s.ctrl.phase = 1 ∨ s.ctrl.phase = 2
  | CLoc.gotSize sz => s.ctrl.phase = 1 ∧ sz = sz0
  | CLoc.wroteTime sz t => s.ctrl.phase = 1 ∧ sz = sz0 ∧ s.ctrl.copy_time = t
  | CLoc.wroteVerify sz t v =>
      s.ctrl.phase = 1 ∧ sz = sz0 ∧ s.ctrl.copy_time = t ∧ s.ctrl.verify_err = v
  | CLoc.exited => False

/-- Inductive invariant of the protocol: what each parent location implies
about the phase, the posted fields and the child location. -/
def ProtoInv (s : Sys) : Prop :=
  match s.parent with
  | PLoc.sizeCheck si =>
      si ≤ NUM_TEST_SIZES ∧ s.ctrl.phase = 0 ∧ s.child = CLoc.waiting
  | PLoc.startCycle si r =>
      si < NUM_TEST_SIZES ∧ r < REPEAT_COUNT ∧ s.ctrl.phase = 0 ∧
      s.child = CLoc.waiting
  | PLoc.wroteSize si r =>
      si < NUM_TEST_SIZES ∧ r < REPEAT_COUNT ∧ s.ctrl.phase = 0 ∧
      s.child = CLoc.waiting ∧ s.ctrl.data_size = sizeAt si
  | PLoc.wroteIter si r =>
      si < NUM_TEST_SIZES ∧ r < REPEAT_COUNT ∧ s.ctrl.phase = 0 ∧
      s.child = CLoc.waiting ∧ s.ctrl.data_size = sizeAt si ∧
      s.ctrl.iteration = r
  | PLoc.posted si r =>
      si < NUM_TEST_SIZES ∧ r < REPEAT_COUNT ∧
      s.ctrl.data_size = sizeAt si ∧ s.ctrl.iteration = r ∧
      ChildInv s (sizeAt si)
  | PLoc.readTime si r t =>
      si < NUM_TEST_SIZES ∧ r < REPEAT_COUNT ∧ s.ctrl.phase = 2 ∧
      s.child = CLoc.waiting ∧ s.ctrl.data_size = sizeAt si ∧
      s.ctrl.iteration = r ∧ s.ctrl.copy_time = t
  | PLoc.readVerify si r t v =>
      si < NUM_TEST_SIZES ∧ r = 0 ∧ s.ctrl.phase = 2 ∧
      s.child = CLoc.waiting ∧ s.ctrl.data_size = sizeAt si ∧
      s.ctrl.iteration = r ∧ s.ctrl.copy_time = t ∧ s.ctrl.verify_err = v
  | PLoc.finalSize =>
      s.ctrl.phase = 0 ∧ s.child = CLoc.waiting ∧ s.ctrl.data_size = 0
  | PLoc.finalPosted =>
      s.ctrl.phase = 1 ∧ s.ctrl.data_size = 0 ∧
      (s.child = CLoc.waiting ∨ s.child = CLoc.gotSize 0 ∨ s.child = CLoc.exited)
  | PLoc.joined =>
      s.ctrl.phase = 1 ∧ s.ctrl.data_size = 0 ∧ s.child = CLoc.exited

/-- State shape after the parent has posted the terminating size = 0 cycle:
the phase stays REQUEST_POSTED, and the child only moves towards exit. -/
def FinalSysInv (s : Sys) : Prop :=
  (s.parent = PLoc.finalPosted ∨ s.parent = PLoc.joined) ∧
  s.ctrl.phase = 1 ∧ s.ctrl.data_size = 0 ∧
  (s.child = CLoc.waiting ∨ s.child = CLoc.gotSize 0 ∨ s.child = CLoc.exited)

/-- Concrete state at the top of the size loop for index si, along the
canonical run in which every measured duration and verify result is 0. -/
def atSizeLoop : Nat → Sys
  | 0 => initSys
  | si + 1 =>
      ⟨⟨0, sizeAt si, REPEAT_COUNT - 1, 0, 0⟩, PLoc.sizeCheck (si + 1), CLoc.waiting⟩

/-- Concrete state just after the parent posts the terminating cycle. -/
def finalPostState : Sys :=
  ⟨⟨1, 0, REPEAT_COUNT - 1, 0, 0⟩, PLoc.finalPosted, CLoc.waiting⟩

/- ========== lemmas about verifyFrom ========== -/

lemma verifyFrom_eq_zero (buf : Nat → Nat) :
    ∀ fuel i, (∀ j, i ≤ j → j < i + fuel → buf j = byteAt j) →
      verifyFrom buf i fuel = 0 := by
  intro fuel
  induction fuel with
  | zero => intro i _; rfl
  | succ n ih =>
    intro i h
    have hi : buf i = byteAt i := h i le_rfl (by omega)
    simp only [verifyFrom]
    rw [if_neg (by simp [hi])]
    exact ih (i + 1) (fun j h1 h2 => h j (by omega) (by omega))

lemma verifyFrom_zero_imp (buf : Nat → Nat) :
    ∀ fuel i, verifyFrom buf i fuel = 0 →
      ∀ j, i ≤ j → j < i + fuel → buf j = byteAt j := by
  intro fuel
  induction fuel with
  | zero => intro i _ j _ h2; omega
  | succ n ih =>
    intro i h j h1 h2
    simp only [verifyFrom] at h
    by_cases hi : buf i = byteAt i
    · rw [if_neg (by simp [hi])] at h
      rcases Nat.eq_or_lt_of_le h1 with he | hlt
      · rw [← he]; exact hi
      · exact ih (i + 1) h j hlt (by omega)
    · rw [if_pos hi] at h
      omega

lemma verifyFrom_pos (buf : Nat → Nat) :
    ∀ fuel i k, i ≤ k → k < i + fuel → buf k ≠ byteAt k →
      (∀ j, i ≤ j → j < k → buf j = byteAt j) →
      verifyFrom buf i fuel = k + 1 := by
  intro fuel
  induction fuel with
  | zero => intro i k h1 h2 _ _; omega
  | succ n ih =>
    intro i k h1 h2 hk hmin
    by_cases hi : buf i = byteAt i
    · have hik : i < k := by
        rcases Nat.eq_or_lt_of_le h1 with he | hlt
        · rw [← he] at hk; exact absurd hi hk
        · exact hlt
      simp only [verifyFrom]
      rw [if_neg (by simp [hi])]
      exact ih (i + 1) k (by omega) (by omega) hk
        (fun j hj1 hj2 => hmin j (by omega) hj2)
    · have hki : k = i := by
        by_contra hne
        exact hi (hmin i le_rfl (by omega))
      subst hki
      simp only [verifyFrom]
      rw [if_pos hi]

/- ========== lemmas about the size loop ========== -/

lemma mem_runSizes : ∀ (l : List Nat) (cap s : Nat),
    s ∈ runSizes l cap → s ∈ l ∧ s ≤ cap := by
  intro l
  induction l with
  | nil => intro cap s h; simp [runSizes] at h
  | cons a rest ih =>
    intro cap s h
    simp only [runSizes] at h
    by_cases hc : a > cap
    · rw [if_pos hc] at h; simp at h
    · rw [if_neg hc] at h
      rcases List.mem_cons.mp h with h1 | h1
      · subst h1; exact ⟨List.mem_cons_self s rest, by omega⟩
      · obtain ⟨h2, h3⟩ := ih cap s h1
        exact ⟨List.mem_cons_of_mem a h2, h3⟩

lemma runSizes_eq_filter : ∀ (l : List Nat), l.Pairwise (· < ·) →
    ∀ cap, runSizes l cap = l.filter (fun s => s ≤ cap) := by
  intro l
  induction l with
  | nil => intro _ _; rfl
  | cons a rest ih =>
    intro hp cap
    obtain ⟨ha, hrest⟩ := List.pairwise_cons.mp hp
    by_cases hc : a > cap
    · have h1 : runSizes (a :: rest) cap = [] := by simp [runSizes, hc]
      have h2 : (a :: rest).filter (fun s => decide (s ≤ cap)) = [] := by
        rw [List.filter_eq_nil_iff]
        intro b hb
        rcases List.mem_cons.mp hb with h | h
        · subst h; simp; omega
        · have := ha b h; simp; omega
      rw [h1, h2]
    · have hac : a ≤ cap := by omega
      simp only [runSizes, if_neg hc]
      rw [List.filter_cons_of_pos (by simp [hac]), ih hrest cap]

lemma count_reqsOf_zero : ∀ (l : List Nat) (cap s : Nat),
    s ∉ l → (reqsOf l cap).count s = 0 := by
  intro l cap s hs
  rw [List.count_eq_zero]
  intro hmem
  unfold reqsOf at hmem
  rw [List.mem_flatMap] at hmem
  obtain ⟨t, ht, hrep⟩ := hmem
  rw [List.eq_of_mem_replicate hrep] at hs
  exact hs (mem_runSizes l cap t ht).1

lemma count_reqsOf : ∀ (l : List Nat), l.Pairwise (· < ·) →
    ∀ cap s, s ∈ l → s ≤ cap → (reqsOf l cap).count s = REPEAT_COUNT := by
  intro l
  induction l with
  | nil => intro _ cap s h; simp at h
  | cons a rest ih =>
    intro hp cap s hmem hcap
    obtain ⟨ha, hrest⟩ := List.pairwise_cons.mp hp
    rcases List.mem_cons.mp hmem with h | h
    · subst h
      have hc : ¬ (s > cap) := by omega
      have heq : reqsOf (s :: rest) cap =
          List.replicate REPEAT_COUNT s ++ reqsOf rest cap := by
        simp [reqsOf, runSizes, hc]
      have hnot : s ∉ rest := fun hs => absurd (ha s hs) (lt_irrefl s)
      rw [heq, List.count_append, List.count_replicate_self,
        count_reqsOf_zero rest cap s hnot]
      omega
    · have has : a < s := ha s h
      have hc : ¬ (a > cap) := by omega
      have heq : reqsOf (a :: rest) cap =
          List.replicate REPEAT_COUNT a ++ reqsOf rest cap := by
        simp [reqsOf, runSizes, hc]
      rw [heq, List.count_append, List.count_replicate]
      have hba : ¬ ((a == s) = true) := by simp; omega
      rw [if_neg hba, ih hrest cap s h hcap]
      omega

/- ========== claim theorems: pattern functions and size table ========== -/

/-- Claim C2: for every buffer length s, including 0 and non-multiples of 8,
filling a buffer with fill_pattern and immediately verifying it with
verify_pattern at the same length returns 0. -/
theorem fill_then_verify_roundtrip :
    ∀ (buf : Nat → Nat) (s : Nat), verify_pattern (fill_pattern buf s) s = 0 := by
  intro buf s
  apply verifyFrom_eq_zero
  intro j h1 h2
  simp only [fill_pattern]
  rw [if_pos (by omega)]

/-- Claim C3: verify_pattern buf n returns 0 exactly when byte i equals
i mod 256 for every i < n, and otherwise returns k + 1 where k is the
smallest offset holding a mismatching byte. -/
theorem verify_pattern_spec :
    ∀ (buf : Nat → Nat) (n : Nat),
      (verify_pattern buf n = 0 ↔ ∀ i, i < n → buf i = byteAt i) ∧
      (∀ k, k < n → buf k ≠ byteAt k → (∀ j, j < k → buf j = byteAt j) →
        verify_pattern buf n = k + 1) := by
  intro buf n
  refine ⟨⟨?_, ?_⟩, ?_⟩
  · intro h i hi
    exact verifyFrom_zero_imp buf n 0 h i (Nat.zero_le i) (by omega)
  · intro h
    exact verifyFrom_eq_zero buf n 0 (fun j _ hj => h j (by omega))
  · intro k hk hbad hmin
    exact verifyFrom_pos buf n 0 k (Nat.zero_le k) (by omega) hbad
      (fun j _ hj => hmin j hj)

/-- Witness for C3: a buffer whose first mismatch sits at offset 2 makes
verify_pattern return 3 on length 5. -/
theorem verify_pattern_spec_witness :
    verify_pattern (fun i => if i = 2 then 7 else byteAt i) 5 = 3 :=
  (verify_pattern_spec (fun i => if i = 2 then 7 else byteAt i) 5).2 2
    (by decide) (by decide) (by decide)

/-- Claim C5: for every capacity, the driver runs exactly the table entries
not exceeding the capacity (an entry equal to the capacity included), each
for REPEAT_COUNT repeats, stops at the first entry exceeding the capacity
(no clamping, no skip-and-continue), and never issues a request larger than
the capacity. -/
theorem size_table_driver :
    ∀ cap : Nat,
      runSizes TEST_SIZES cap = TEST_SIZES.filter (fun s => s ≤ cap) ∧
      (∀ s ∈ TEST_SIZES, s ≤ cap → (sizeRequests cap).count s = REPEAT_COUNT) ∧
      (∀ s ∈ sizeRequests cap, s ≤ cap) := by
  intro cap
  have hp : TEST_SIZES.Pairwise (· < ·) := by decide
  refine ⟨runSizes_eq_filter TEST_SIZES hp cap, ?_, ?_⟩
  · intro s hs hcap
    exact count_reqsOf TEST_SIZES hp cap s hs hcap
  · intro s hs
    unfold sizeRequests reqsOf at hs
    rw [List.mem_flatMap] at hs
    obtain ⟨t, ht, hrep⟩ := hs
    rw [List.eq_of_mem_replicate hrep]
    exact (mem_runSizes TEST_SIZES cap t ht).2

/-- Witness for C5: with capacity 64 KB, the entry equal to the capacity is
run exactly REPEAT_COUNT times. -/
theorem size_table_driver_witness :
    (sizeRequests 65536).count 65536 = REPEAT_COUNT :=
  (size_table_driver 65536).2.1 65536 (by decide) (by decide)

/-- Claim C9: every TEST_SIZES entry is nonzero and a multiple of 8, the
table is strictly ascending, the sentinel size 0 never coincides with a
genuine request, and the 64-bit word traversal of the direct benchmark reads
exactly size bytes for every entry. -/
theorem test_sizes_shape :
    TEST_SIZES.Pairwise (· < ·) ∧
    (∀ s ∈ TEST_SIZES, s ≠ 0 ∧ s % 8 = 0 ∧ directBytesRead s = s) ∧
    (∀ cap s, s ∈ sizeRequests cap → s ≠ 0) := by
  refine ⟨by decide, by decide, ?_⟩
  intro cap s hs
  unfold sizeRequests reqsOf at hs
  rw [List.mem_flatMap] at hs
  obtain ⟨t, ht, hrep⟩ := hs
  rw [List.eq_of_mem_replicate hrep]
  have hmem := (mem_runSizes TEST_SIZES cap t ht).1
  exact ((by decide : ∀ s ∈ TEST_SIZES, s ≠ 0 ∧ s % 8 = 0 ∧
    directBytesRead s = s) t hmem).1

/-- Witness for C9: the first table entry is nonzero, 8-divisible, and fully
covered by the word traversal. -/
theorem test_sizes_shape_witness :
    4096 ≠ 0 ∧ 4096 % 8 = 0 ∧ directBytesRead 4096 = 4096 :=
  test_sizes_shape.2.1 4096 (by decide)

/- ========== lemmas about print_summary ========== -/

lemma minStep_eq : (fun (m t : ℚ) => if t < m then t else m) = min := by
  funext m t
  rcases lt_or_le t m with h | h
  · rw [if_pos h, min_eq_right h.le]
  · rw [if_neg (not_lt.mpr h), min_eq_left h]

lemma maxStep_eq : (fun (m t : ℚ) => if m < t then t else m) = max := by
  funext m t
  rcases lt_or_le m t with h | h
  · rw [if_pos h, max_eq_right h.le]
  · rw [if_neg (not_lt.mpr h), max_eq_left h]

lemma foldl_min_le_init (l : List ℚ) : ∀ a : ℚ, l.foldl min a ≤ a := by
  induction l with
  | nil => intro a; exact le_refl a
  | cons b rest ih =>
    intro a
    rw [List.foldl_cons]
    exact le_trans (ih (min a b)) (min_le_left a b)

lemma foldl_min_le (l : List ℚ) : ∀ a t : ℚ, t ∈ l → l.foldl min a ≤ t := by
  induction l with
  | nil => intro a t h; simp at h
  | cons b rest ih =>
    intro a t h
    rw [List.foldl_cons]
    rcases List.mem_cons.mp h with h1 | h1
    · subst h1
      exact le_trans (foldl_min_le_init rest (min a t)) (min_le_right a t)
    · exact ih (min a b) t h1

lemma foldl_min_mem (l : List ℚ) : ∀ a : ℚ, l.foldl min a = a ∨ l.foldl min a ∈ l := by
  induction l with
  | nil => intro a; left; rfl
  | cons b rest ih =>
    intro a
    rw [List.foldl_cons]
    rcases ih (min a b) with h | h
    · rw [h]
      rcases le_total a b with hab | hab
      · left; exact min_eq_left hab
      · right; rw [min_eq_right hab]; exact List.mem_cons_self b rest
    · right; exact List.mem_cons_of_mem b h

lemma foldl_max_le_init (l : List ℚ) : ∀ a : ℚ, a ≤ l.foldl max a := by
  induction l with
  | nil => intro a; exact le_refl a
  | cons b rest ih =>
    intro a
    rw [List.foldl_cons]
    exact le_trans (le_max_left a b) (ih (max a b))

lemma foldl_max_le (l : List ℚ) : ∀ a t : ℚ, t ∈ l → t ≤ l.foldl max a := by
  induction l with
  | nil => intro a t h; simp at h
  | cons b rest ih =>
    intro a t h
    rw [List.foldl_cons]
    rcases List.mem_cons.mp h with h1 | h1
    · subst h1
      exact le_trans (le_max_right a t) (foldl_max_le_init rest (max a t))
    · exact ih (max a b) t h1

lemma foldl_max_mem (l : List ℚ) : ∀ a : ℚ, l.foldl max a = a ∨ l.foldl max a ∈ l := by
  induction l with
  | nil => intro a; left; rfl
  | cons b rest ih =>
    intro a
    rw [List.foldl_cons]
    rcases ih (max a b) with h | h
    · rw [h]
      rcases le_total a b with hab | hab
      · right; rw [max_eq_right hab]; exact List.mem_cons_self b rest
      · left; exact max_eq_left hab
    · right; exact List.mem_cons_of_mem b h

lemma foldl_add_eq (l : List ℚ) : ∀ c : ℚ, l.foldl (fun a t => a + t) c = c + l.sum := by
  induction l with
  | nil => intro c; simp
  | cons b rest ih =>
    intro c
    rw [List.foldl_cons, ih (c + b), List.sum_cons]
    ring

lemma mul_length_le_sum (l : List ℚ) (m : ℚ) (h : ∀ t ∈ l, m ≤ t) :
    m * (l.length : ℚ) ≤ l.sum := by
  induction l with
  | nil => simp
  | cons b rest ih =>
    have hb : m ≤ b := h b (List.mem_cons_self b rest)
    have hr := ih (fun t ht => h t (List.mem_cons_of_mem b ht))
    rw [List.sum_cons, List.length_cons]
    push_cast
    linarith

lemma sum_le_mul_length (l : List ℚ) (m : ℚ) (h : ∀ t ∈ l, t ≤ m) :
    l.sum ≤ m * (l.length : ℚ) := by
  induction l with
  | nil => simp
  | cons b rest ih =>
    have hb : b ≤ m := h b (List.mem_cons_self b rest)
    have hr := ih (fun t ht => h t (List.mem_cons_of_mem b ht))
    rw [List.sum_cons, List.length_cons]
    push_cast
    linarith

lemma summaryLoop_isSome (times : List ℚ) :
    ∀ (l : List Nat) (acc : ℚ × ℚ × ℚ), (∀ i ∈ l, i < times.length) →
      (summaryLoop times acc l).isSome = true := by
  intro l
  induction l with
  | nil => intro acc _; rfl
  | cons i rest ih =>
    intro acc h
    obtain ⟨mn, mx, sm⟩ := acc
    have hi : i < times.length := h i (List.mem_cons_self i rest)
    simp only [summaryLoop]
    rw [List.getElem?_eq_getElem hi]
    exact ih _ (fun j hj => h j (List.mem_cons_of_mem i hj))

lemma print_summary_min (size : Nat) (times : List ℚ) :
    (print_summary size times).min_t = times.foldl min (times.headD 0) := by
  simp only [print_summary, minStep_eq]

lemma print_summary_max (size : Nat) (times : List ℚ) :
    (print_summary size times).max_t = times.foldl max (times.headD 0) := by
  simp only [print_summary, maxStep_eq]

lemma print_summary_avg (size : Nat) (times : List ℚ) :
    (print_summary size times).avg_t = times.sum / (times.length : ℚ) := by
  simp only [print_summary]
  rw [foldl_add_eq, zero_add]

lemma print_summary_bw (size : Nat) (times : List ℚ) :
    (print_summary size times).avg_bw =
      (size : ℚ) / (times.sum / (times.length : ℚ)) / (1024 * 1024 * 1024) := by
  simp only [print_summary]
  rw [foldl_add_eq, zero_add]

/-- Claim C8: for a nonempty sample list, print_summary reports the minimum,
the maximum and the arithmetic mean of the samples, computes the mean
bandwidth as size divided by the mean elapsed time in 1024-based GB/s
(which in general differs from the mean of the per-repeat bandwidths), and
the reported values satisfy min_t ≤ avg_t ≤ max_t. -/
theorem print_summary_spec :
    (∀ (size : Nat) (times : List ℚ), times ≠ [] →
      ((print_summary size times).min_t ∈ times ∧
        ∀ t ∈ times, (print_summary size times).min_t ≤ t) ∧
      ((print_summary size times).max_t ∈ times ∧
        ∀ t ∈ times, t ≤ (print_summary size times).max_t) ∧
      (print_summary size times).avg_t = times.sum / (times.length : ℚ) ∧
      (print_summary size times).avg_bw =
        (size : ℚ) / (print_summary size times).avg_t / (1024 * 1024 * 1024) ∧
      (print_summary size times).min_t ≤ (print_summary size times).avg_t ∧
      (print_summary size times).avg_t ≤ (print_summary size times).max_t) ∧
    (∃ (sz : Nat) (ts : List ℚ), ts ≠ [] ∧
      (print_summary sz ts).avg_bw ≠
        (ts.map (fun t => (sz : ℚ) / t / (1024 * 1024 * 1024))).sum /
          (ts.length : ℚ)) := by
  constructor
  · intro size times hne
    obtain ⟨a, as, rfl⟩ := List.exists_cons_of_ne_nil hne
    have hhead : (a :: as).headD 0 = a := rfl
    have hmin_mem : (print_summary size (a :: as)).min_t ∈ a :: as := by
      rw [print_summary_min, hhead]
      rcases foldl_min_mem (a :: as) a with h | h
      · rw [h]; exact List.mem_cons_self a as
      · exact h
    have hmin_le : ∀ t ∈ a :: as, (print_summary size (a :: as)).min_t ≤ t := by
      intro t ht
      rw [print_summary_min, hhead]
      exact foldl_min_le (a :: as) a t ht
    have hmax_mem : (print_summary size (a :: as)).max_t ∈ a :: as := by
      rw [print_summary_max, hhead]
      rcases foldl_max_mem (a :: as) a with h | h
      · rw [h]; exact List.mem_cons_self a as
      · exact h
    have hmax_le : ∀ t ∈ a :: as, t ≤ (print_summary size (a :: as)).max_t := by
      intro t ht
      rw [print_summary_max, hhead]
      exact foldl_max_le (a :: as) a t ht
    have hlen : (0 : ℚ) < ((a :: as).length : ℚ) := by
      rw [List.length_cons]
      push_cast
      positivity
    have havg : (print_summary size (a :: as)).avg_t =
        (a :: as).sum / (((a :: as).length : ℚ)) := print_summary_avg size (a :: as)
    refine ⟨⟨hmin_mem, hmin_le⟩, ⟨hmax_mem, hmax_le⟩, havg, ?_, ?_, ?_⟩
    · rw [print_summary_bw, havg]
    · rw [havg, le_div_iff₀ hlen]
      exact mul_length_le_sum (a :: as) _ hmin_le
    · rw [havg, div_le_iff₀ hlen]
      exact sum_le_mul_length (a :: as) _ hmax_le
  · refine ⟨1073741824, [1, 3], by simp, ?_⟩
    rw [print_summary_bw]
    norm_num

/-- Witness for C8: on the concrete samples [1, 2] the mean is sum/count and
lies between min and max. -/
theorem print_summary_spec_witness :
    (print_summary 4096 [1, 2]).avg_t =
      ([1, 2] : List ℚ).sum / ((([1, 2] : List ℚ).length : ℚ)) ∧
    (print_summary 4096 [1, 2]).min_t ≤ (print_summary 4096 [1, 2]).avg_t :=
  ⟨(print_summary_spec.1 4096 [1, 2] (by simp)).2.2.1,
   (print_summary_spec.1 4096 [1, 2] (by simp)).2.2.2.2.1⟩

/-- Claim C10: print_summary needs count ≥ 1 and an array of at least count
elements; under that precondition every access of its loop is in bounds and
the final division is well defined, and the call sites of the program all
pass count = REPEAT_COUNT = 5 with a 5-element array, which satisfies it. -/
theorem print_summary_precondition :
    (∀ (size : Nat) (times : List ℚ) (count : Nat),
      1 ≤ count → count ≤ times.length →
      (print_summary_chk size times count).isSome = true) ∧
    REPEAT_COUNT = 5 ∧
    (∀ (size : Nat) (times : List ℚ), times.length = REPEAT_COUNT →
      (print_summary_chk size times REPEAT_COUNT).isSome = true) := by
  have main : ∀ (size : Nat) (times : List ℚ) (count : Nat),
      1 ≤ count → count ≤ times.length →
      (print_summary_chk size times count).isSome = true := by
    intro size times count h1 h2
    have h0 : 0 < times.length := by omega
    obtain ⟨t0, ht0⟩ : ∃ t, times[0]? = some t := by
      rw [List.getElem?_eq_getElem h0]
      exact ⟨_, rfl⟩
    have hloop := summaryLoop_isSome times (List.range count) (t0, t0, 0)
      (fun i hi => by rw [List.mem_range] at hi; omega)
    obtain ⟨acc, hacc⟩ := Option.isSome_iff_exists.mp hloop
    obtain ⟨mn, mx, sm⟩ := acc
    simp only [print_summary_chk, ht0, hacc]
    rw [if_neg (by omega : ¬ count = 0)]
    rfl
  refine ⟨main, rfl, ?_⟩
  intro size times hlen
  exact main size times REPEAT_COUNT (by decide) (by omega)

/-- Witness for C10: a 5-element array with count = REPEAT_COUNT passes all
bounds checks. -/
theorem print_summary_precondition_witness :
    (print_summary_chk 4096 [1, 1, 1, 1, 1] REPEAT_COUNT).isSome = true :=
  print_summary_precondition.2.2 4096 [1, 1, 1, 1, 1] rfl

/-- Claim C7: when the descriptor file does not parse into exactly 3 fields,
the importer prints a diagnostic to the error stream and exits with status 1
without printing any benchmark result row. -/
theorem importer_bad_descriptor :
    ∀ (w : ImporterWorld) (matched : Nat) (segid : Int) (maxSize : Nat) (pid : Int),
      w.descriptor = some (matched, segid, maxSize, pid) → matched ≠ 3 →
      (importer_main w).1 = 1 ∧
      Ev.errDiag ∈ (importer_main w).2 ∧
      Ev.benchRow ∉ (importer_main w).2 := by
  intro w matched segid maxSize pid hdesc hm
  simp only [importer_main, hdesc]
  rw [if_pos hm]
  exact ⟨rfl, by simp, by simp⟩

/-- Witness for C7: a descriptor with only 2 matched fields makes the
importer exit 1 with a diagnostic and no benchmark rows. -/
theorem importer_bad_descriptor_witness :
    (importer_main ⟨some (2, 7, 4096, 42), true, true, true⟩).1 = 1 ∧
    Ev.errDiag ∈ (importer_main ⟨some (2, 7, 4096, 42), true, true, true⟩).2 ∧
    Ev.benchRow ∉ (importer_main ⟨some (2, 7, 4096, 42), true, true, true⟩).2 :=
  importer_bad_descriptor ⟨some (2, 7, 4096, 42), true, true, true⟩ 2 7 4096 42
    rfl (by decide)

/-- Counterexample to claim C6 as stated: in the shm benchmark the responder
calls verify_pattern on the transferred data in every one of the
REPEAT_COUNT handled cycles of a size, so its per-size trace contains
REPEAT_COUNT verification calls, not exactly one on the first repeat. -/
theorem shm_verifies_every_repeat :
    Act.verifyCall ∈ shm_child_cycle ∧
    shm_child_size_trace.count Act.verifyCall = REPEAT_COUNT ∧
    shm_child_size_trace.count Act.verifyCall ≠ 1 := by decide

/-- Claim C6 (amended): in the xpmem memcpy benchmark verify_pattern runs
exactly once per size, on the first repeat only; in the shm benchmark the
responder runs verify_pattern on every repeat and the requester consumes the
verify result on the first repeat only; the direct and local benchmarks
never call the verifier. -/
theorem verify_schedule :
    ((List.range REPEAT_COUNT).flatMap xpmem_cpy_repeat).count Act.verifyCall = 1 ∧
    (∀ r, r < REPEAT_COUNT → (Act.verifyCall ∈ xpmem_cpy_repeat r ↔ r = 0)) ∧
    shm_child_size_trace.count Act.verifyCall = REPEAT_COUNT ∧
    (∀ r, r < REPEAT_COUNT → (Act.consumeVerify ∈ shm_parent_repeat r ↔ r = 0)) ∧
    ((List.range REPEAT_COUNT).flatMap (fun _ => xpmem_dir_repeat)).count
      Act.verifyCall = 0 ∧
    ((List.range REPEAT_COUNT).flatMap (fun _ => local_cpy_repeat)).count
      Act.verifyCall = 0 := by
  decide

/-- Witness for C6 (amended): the xpmem memcpy benchmark verifies on repeat 0
and not on repeat 1. -/
theorem verify_schedule_witness :
    Act.verifyCall ∈ xpmem_cpy_repeat 0 ∧ Act.verifyCall ∉ xpmem_cpy_repeat 1 :=
  ⟨(verify_schedule.2.1 0 (by decide)).mpr rfl,
   fun h => Nat.one_ne_zero ((verify_schedule.2.1 1 (by decide)).mp h)⟩

/- ========== the protocol invariant ========== -/

lemma sizeAt_pos : ∀ si, si < NUM_TEST_SIZES → sizeAt si ≠ 0 := by decide

lemma sizeAt_le_max : ∀ si, si < NUM_TEST_SIZES → sizeAt si ≤ shm_max_size := by
  decide

lemma inv_init : ProtoInv initSys := ⟨Nat.zero_le _, rfl, rfl⟩

lemma inv_step (s s' : Sys) (hs : ProtoInv s) (st : Step s s') : ProtoInv s' := by
  cases st with
  | p_enterSize si hp hsi hsz =>
    simp only [ProtoInv, hp] at hs
    exact ⟨hsi, by decide, hs.2.1, hs.2.2⟩
  | p_breakSize si hp hsi hgt =>
    simp only [ProtoInv, hp] at hs
    exact ⟨hs.2.1, hs.2.2, rfl⟩
  | p_exitSize si hp heq =>
    simp only [ProtoInv, hp] at hs
    exact ⟨hs.2.1, hs.2.2, rfl⟩
  | p_writeSize si r hp =>
    simp only [ProtoInv, hp] at hs
    exact ⟨hs.1, hs.2.1, hs.2.2.1, hs.2.2.2, rfl⟩
  | p_writeIter si r hp =>
    simp only [ProtoInv, hp] at hs
    exact ⟨hs.1, hs.2.1, hs.2.2.1, hs.2.2.2.1, hs.2.2.2.2, rfl⟩
  | p_post si r hp =>
    simp only [ProtoInv, hp] at hs
    obtain ⟨hsi, hr, hph, hch, hds, hit⟩ := hs
    refine ⟨hsi, hr, hds, hit, ?_⟩
    simp [ChildInv, hch]
  | p_readTime si r hp hph2 =>
    simp only [ProtoInv, hp] at hs
    obtain ⟨hsi, hr, hds, hit, hci⟩ := hs
    cases hc : s.child with
    | waiting => exact ⟨hsi, hr, hph2, rfl, hds, hit, rfl⟩
    | gotSize sz =>
      simp only [ChildInv, hc] at hci
      omega
    | wroteTime sz t =>
      simp only [ChildInv, hc] at hci
      omega
    | wroteVerify sz t v =>
      simp only [ChildInv, hc] at hci
      omega
    | exited =>
      simp only [ChildInv, hc] at hci
  | p_readVerify si t hp =>
    simp only [ProtoInv, hp] at hs
    obtain ⟨hsi, hr, hph, hch, hds, hit, hct⟩ := hs
    exact ⟨hsi, rfl, hph, hch, hds, hit, hct, rfl⟩
  | p_reset0 si t v hp =>
    simp only [ProtoInv, hp] at hs
    obtain ⟨hsi, hr0, hph, hch, hds, hit, hct, hve⟩ := hs
    rw [show nextCycle si 0 = PLoc.startCycle si 1 from if_pos (by decide)]
    exact ⟨hsi, by decide, rfl, hch⟩
  | p_resetLater si r t hp hr0 =>
    simp only [ProtoInv, hp] at hs
    obtain ⟨hsi, hr, hph, hch, hds, hit, hct⟩ := hs
    by_cases hlt : r + 1 < REPEAT_COUNT
    · rw [show nextCycle si r = PLoc.startCycle si (r + 1) from if_pos hlt]
      exact ⟨hsi, hlt, rfl, hch⟩
    · rw [show nextCycle si r = PLoc.sizeCheck (si + 1) from if_neg hlt]
      exact ⟨by omega, rfl, hch⟩
  | p_finalPost hp =>
    simp only [ProtoInv, hp] at hs
    exact ⟨rfl, hs.2.2, Or.inl hs.2.1⟩
  | p_join hp hex =>
    simp only [ProtoInv, hp] at hs
    exact ⟨hs.1, hs.2.1, hex⟩
  | c_receive hc hph =>
    cases hps : s.parent with
    | sizeCheck si =>
      simp only [ProtoInv, hps] at hs
      omega
    | startCycle si r =>
      simp only [ProtoInv, hps] at hs
      omega
    | wroteSize si r =>
      simp only [ProtoInv, hps] at hs
      omega
    | wroteIter si r =>
      simp only [ProtoInv, hps] at hs
      omega
    | posted si r =>
      simp only [ProtoInv, hps] at hs
      obtain ⟨hsi, hr, hds, hit, hci⟩ := hs
      simp only [ProtoInv, hps]
      exact ⟨hsi, hr, hds, hit, hph, hds⟩
    | readTime si r t =>
      simp only [ProtoInv, hps] at hs
      omega
    | readVerify si r t v =>
      simp only [ProtoInv, hps] at hs
      omega
    | finalSize =>
      simp only [ProtoInv, hps] at hs
      omega
    | finalPosted =>
      simp only [ProtoInv, hps] at hs
      obtain ⟨hph1, hds, hchd⟩ := hs
      simp only [ProtoInv, hps]
      exact ⟨hph1, hds, Or.inr (Or.inl (congrArg CLoc.gotSize hds))⟩
    | joined =>
      simp only [ProtoInv, hps] at hs
      rw [hc] at hs
      simp at hs
  | c_exit hc =>
    cases hps : s.parent with
    | sizeCheck si =>
      simp only [ProtoInv, hps] at hs
      rw [hc] at hs
      simp at hs
    | startCycle si r =>
      simp only [ProtoInv, hps] at hs
      rw [hc] at hs
      simp at hs
    | wroteSize si r =>
      simp only [ProtoInv, hps] at hs
      rw [hc] at hs
      simp at hs
    | wroteIter si r =>
      simp only [ProtoInv, hps] at hs
      rw [hc] at hs
      simp at hs
    | posted si r =>
      simp only [ProtoInv, hps] at hs
      obtain ⟨hsi, hr, hds, hit, hci⟩ := hs
      simp only [ChildInv, hc] at hci
      exact absurd hci.2.symm (sizeAt_pos si hsi)
    | readTime si r t =>
      simp only [ProtoInv, hps] at hs
      rw [hc] at hs
      simp at hs
    | readVerify si r t v =>
      simp only [ProtoInv, hps] at hs
      rw [hc] at hs
      simp at hs
    | finalSize =>
      simp only [ProtoInv, hps] at hs
      rw [hc] at hs
      simp at hs
    | finalPosted =>
      simp only [ProtoInv, hps] at hs
      obtain ⟨hph1, hds, hchd⟩ := hs
      simp only [ProtoInv, hps]
      exact ⟨hph1, hds, Or.inr (Or.inr trivial)⟩
    | joined =>
      simp only [ProtoInv, hps] at hs
      rw [hc] at hs
      simp at hs
  | c_writeTime sz t hc hsz =>
    cases hps : s.parent with
    | sizeCheck si =>
      simp only [ProtoInv, hps] at hs
      rw [hc] at hs
      simp at hs
    | startCycle si r =>
      simp only [ProtoInv, hps] at hs
      rw [hc] at hs
      simp at hs
    | wroteSize si r =>
      simp only [ProtoInv, hps] at hs
      rw [hc] at hs
      simp at hs
    | wroteIter si r =>
      simp only [ProtoInv, hps] at hs
      rw [hc] at hs
      simp at hs
    | posted si r =>
      simp only [ProtoInv, hps] at hs
      obtain ⟨hsi, hr, hds, hit, hci⟩ := hs
      simp only [ChildInv, hc] at hci
      simp only [ProtoInv, hps]
      exact ⟨hsi, hr, hds, hit, hci.1, hci.2, rfl⟩
    | readTime si r t2 =>
      simp only [ProtoInv, hps] at hs
      rw [hc] at hs
      simp at hs
    | readVerify si r t2 v =>
      simp only [ProtoInv, hps] at hs
      rw [hc] at hs
      simp at hs
    | finalSize =>
      simp only [ProtoInv, hps] at hs
      rw [hc] at hs
      simp at hs
    | finalPosted =>
      simp only [ProtoInv, hps] at hs
      obtain ⟨hph1, hds, hchd⟩ := hs
      rw [hc] at hchd
      rcases hchd with h | h | h
      · simp at h
      · rw [CLoc.gotSize.injEq] at h
        exact absurd h hsz
      · simp at h
    | joined =>
      simp only [ProtoInv, hps] at hs
      rw [hc] at hs
      simp at hs
  | c_writeVerify sz t v hc =>
    cases hps : s.parent with
    | sizeCheck si =>
      simp only [ProtoInv, hps] at hs
      rw [hc] at hs
      simp at hs
    | startCycle si r =>
      simp only [ProtoInv, hps] at hs
      rw [hc] at hs
      simp at hs
    | wroteSize si r =>
      simp only [ProtoInv, hps] at hs
      rw [hc] at hs
      simp at hs
    | wroteIter si r =>
      simp only [ProtoInv, hps] at hs
      rw [hc] at hs
      simp at hs
    | posted si r =>
      simp only [ProtoInv, hps] at hs
      obtain ⟨hsi, hr, hds, hit, hci⟩ := hs
      simp only [ChildInv, hc] at hci
      simp only [ProtoInv, hps]
      exact ⟨hsi, hr, hds, hit, hci.1, hci.2.1, hci.2.2, rfl⟩
    | readTime si r t2 =>
      simp only [ProtoInv, hps] at hs
      rw [hc] at hs
      simp at hs
    | readVerify si r t2 v2 =>
      simp only [ProtoInv, hps] at hs
      rw [hc] at hs
      simp at hs
    | finalSize =>
      simp only [ProtoInv, hps] at hs
      rw [hc] at hs
      simp at hs
    | finalPosted =>
      simp only [ProtoInv, hps] at hs
      rw [hc] at hs
      simp at hs
    | joined =>
      simp only [ProtoInv, hps] at hs
      rw [hc] at hs
      simp at hs
  | c_respond sz t v hc =>
    cases hps : s.parent with
    | sizeCheck si =>
      simp only [ProtoInv, hps] at hs
      rw [hc] at hs
      simp at hs
    | startCycle si r =>
      simp only [ProtoInv, hps] at hs
      rw [hc] at hs
      simp at hs
    | wroteSize si r =>
      simp only [ProtoInv, hps] at hs
      rw [hc] at hs
      simp at hs
    | wroteIter si r =>
      simp only [ProtoInv, hps] at hs
      rw [hc] at hs
      simp at hs
    | posted si r =>
      simp only [ProtoInv, hps] at hs
      obtain ⟨hsi, hr, hds, hit, hci⟩ := hs
      simp only [ProtoInv, hps]
      exact ⟨hsi, hr, hds, hit, Or.inr rfl⟩
    | readTime si r t2 =>
      simp only [ProtoInv, hps] at hs
      rw [hc] at hs
      simp at hs
    | readVerify si r t2 v2 =>
      simp only [ProtoInv, hps] at hs
      rw [hc] at hs
      simp at hs
    | finalSize =>
      simp only [ProtoInv, hps] at hs
      rw [hc] at hs
      simp at hs
    | finalPosted =>
      simp only [ProtoInv, hps] at hs
      rw [hc] at hs
      simp at hs
    | joined =>
      simp only [ProtoInv, hps] at hs
      rw [hc] at hs
      simp at hs

lemma inv_reach : ∀ s, Reach s → ProtoInv s := by
  intro s h
  induction h with
  | refl => exact inv_init
  | tail _ st ih => exact inv_step _ _ ih st

/- ========== reachability of concrete protocol states ========== -/

lemma reach_readTime (s : Sys) (si r : Nat) (hsi : si < NUM_TEST_SIZES)
    (hp : s.parent = PLoc.startCycle si r) (hc : s.child = CLoc.waiting) :
    Relation.ReflTransGen Step s
      ⟨⟨2, sizeAt si, r, 0, 0⟩, PLoc.readTime si r 0, CLoc.waiting⟩ := by
  refine .head (Step.p_writeSize s si r hp) ?_
  refine .head (Step.p_writeIter _ si r rfl) ?_
  refine .head (Step.p_post _ si r rfl) ?_
  refine .head (Step.c_receive _ hc rfl) ?_
  refine .head (Step.c_writeTime _ (sizeAt si) 0 rfl (sizeAt_pos si hsi)) ?_
  refine .head (Step.c_writeVerify _ (sizeAt si) 0 0 rfl) ?_
  refine .head (Step.c_respond _ (sizeAt si) 0 0 rfl) ?_
  refine .head (Step.p_readTime _ si r rfl rfl) ?_
  exact .refl

lemma reach_cycle (s : Sys) (si r : Nat) (hsi : si < NUM_TEST_SIZES)
    (hp : s.parent = PLoc.startCycle si r) (hc : s.child = CLoc.waiting) :
    Relation.ReflTransGen Step s
      ⟨⟨0, sizeAt si, r, 0, 0⟩, nextCycle si r, CLoc.waiting⟩ := by
  refine Relation.ReflTransGen.trans (reach_readTime s si r hsi hp hc) ?_
  by_cases hr : r = 0
  · subst hr
    refine .head (Step.p_readVerify _ si 0 rfl) ?_
    refine .head (Step.p_reset0 _ si 0 0 rfl) ?_
    exact .refl
  · refine .head (Step.p_resetLater _ si r 0 rfl hr) ?_
    exact .refl

lemma atSizeLoop_parent : ∀ n, (atSizeLoop n).parent = PLoc.sizeCheck n := by
  intro n
  cases n with
  | zero => rfl
  | succ m => rfl

lemma atSizeLoop_child : ∀ n, (atSizeLoop n).child = CLoc.waiting := by
  intro n
  cases n with
  | zero => rfl
  | succ m => rfl

lemma reach_atSizeLoop : ∀ si, si ≤ NUM_TEST_SIZES → Reach (atSizeLoop si) := by
  intro si
  induction si with
  | zero => intro _; exact .refl
  | succ n ih =>
    intro h
    have hn : n < NUM_TEST_SIZES := by omega
    have h0 : Reach (atSizeLoop n) := ih (by omega)
    refine h0.trans ?_
    refine .head (Step.p_enterSize _ n (atSizeLoop_parent n) hn (sizeAt_le_max n hn)) ?_
    have c0 := reach_cycle { atSizeLoop n with parent := PLoc.startCycle n 0 }
      n 0 hn rfl (atSizeLoop_child n)
    refine c0.trans ?_
    have c1 := reach_cycle ⟨⟨0, sizeAt n, 0, 0, 0⟩, nextCycle n 0, CLoc.waiting⟩
      n 1 hn rfl rfl
    refine c1.trans ?_
    have c2 := reach_cycle ⟨⟨0, sizeAt n, 1, 0, 0⟩, nextCycle n 1, CLoc.waiting⟩
      n 2 hn rfl rfl
    refine c2.trans ?_
    have c3 := reach_cycle ⟨⟨0, sizeAt n, 2, 0, 0⟩, nextCycle n 2, CLoc.waiting⟩
      n 3 hn rfl rfl
    refine c3.trans ?_
    have c4 := reach_cycle ⟨⟨0, sizeAt n, 3, 0, 0⟩, nextCycle n 3, CLoc.waiting⟩
      n 4 hn rfl rfl
    exact c4

lemma reach_finalPost : Reach finalPostState := by
  have h8 := reach_atSizeLoop NUM_TEST_SIZES le_rfl
  refine h8.trans ?_
  refine .head (Step.p_exitSize _ NUM_TEST_SIZES (atSizeLoop_parent _) rfl) ?_
  refine .head (Step.p_finalPost _ rfl) ?_
  exact .refl

/-- Claim C1 (amended): in every reachable state phase holds 0, 1 or 2, the
parent reads verify_err only in cycles with repeat index 0, and every
phase-changing transition is one of exactly three: the requester posts
IDLE to REQUEST_POSTED having already written data_size and iteration (the
final post carries data_size = 0); the responder posts REQUEST_POSTED to
RESPONSE_POSTED having already written copy_time and verify_err; the
requester resets RESPONSE_POSTED to IDLE after reading copy_time, and
additionally verify_err when the repeat index is 0. Each transition is made
by exactly one side (the other process location is unchanged). -/
theorem shm_phase_protocol :
    ∀ s, Reach s →
      ((s.ctrl.phase = 0 ∨ s.ctrl.phase = 1 ∨ s.ctrl.phase = 2) ∧
       (∀ si r t v, s.parent = PLoc.readVerify si r t v → r = 0)) ∧
      (∀ s', Step s s' → s'.ctrl.phase ≠ s.ctrl.phase →
        ((s.ctrl.phase = 0 ∧ s'.ctrl.phase = 1 ∧ s'.child = s.child ∧
          ((∃ si r, s.parent = PLoc.wroteIter si r ∧
             s.ctrl.data_size = sizeAt si ∧ s.ctrl.iteration = r) ∨
           (s.parent = PLoc.finalSize ∧ s.ctrl.data_size = 0))) ∨
         (s.ctrl.phase = 1 ∧ s'.ctrl.phase = 2 ∧ s'.parent = s.parent ∧
          (∃ sz t v, s.child = CLoc.wroteVerify sz t v ∧
            s.ctrl.copy_time = t ∧ s.ctrl.verify_err = v)) ∨
         (s.ctrl.phase = 2 ∧ s'.ctrl.phase = 0 ∧ s'.child = s.child ∧
          ((∃ si t v, s.parent = PLoc.readVerify si 0 t v ∧
             t = s.ctrl.copy_time ∧ v = s.ctrl.verify_err) ∨
           (∃ si r t, s.parent = PLoc.readTime si r t ∧ r ≠ 0 ∧
             t = s.ctrl.copy_time))))) := by
  intro s hre
  have hinv := inv_reach s hre
  refine ⟨⟨?_, ?_⟩, ?_⟩
  · cases hps : s.parent with
    | sizeCheck si => simp only [ProtoInv, hps] at hinv; omega
    | startCycle si r => simp only [ProtoInv, hps] at hinv; omega
    | wroteSize si r => simp only [ProtoInv, hps] at hinv; omega
    | wroteIter si r => simp only [ProtoInv, hps] at hinv; omega
    | posted si r =>
      simp only [ProtoInv, hps] at hinv
      obtain ⟨hsi, hr, hds, hit, hci⟩ := hinv
      cases hc : s.child with
      | waiting =>
        simp only [ChildInv, hc] at hci
        rcases hci with h | h
        · omega
        · omega
      | gotSize sz =>
        simp only [ChildInv, hc] at hci
        omega
      | wroteTime sz t =>
        simp only [ChildInv, hc] at hci
        omega
      | wroteVerify sz t v =>
        simp only [ChildInv, hc] at hci
        omega
      | exited => simp only [ChildInv, hc] at hci
    | readTime si r t => simp only [ProtoInv, hps] at hinv; omega
    | readVerify si r t v => simp only [ProtoInv, hps] at hinv; omega
    | finalSize => simp only [ProtoInv, hps] at hinv; omega
    | finalPosted => simp only [ProtoInv, hps] at hinv; omega
    | joined => simp only [ProtoInv, hps] at hinv; omega
  · intro si r t v hp
    simp only [ProtoInv, hp] at hinv
    exact hinv.2.1
  · intro s' st hne
    cases st with
    | p_enterSize si hp hsi hsz => exact absurd rfl hne
    | p_breakSize si hp hsi hgt => exact absurd rfl hne
    | p_exitSize si hp heq => exact absurd rfl hne
    | p_writeSize si r hp => exact absurd rfl hne
    | p_writeIter si r hp => exact absurd rfl hne
    | p_post si r hp =>
      simp only [ProtoInv, hp] at hinv
      obtain ⟨hsi, hr, hph, hch, hds, hit⟩ := hinv
      exact Or.inl ⟨hph, rfl, rfl, Or.inl ⟨si, r, hp, hds, hit⟩⟩
    | p_readTime si r hp hph2 => exact absurd rfl hne
    | p_readVerify si t hp => exact absurd rfl hne
    | p_reset0 si t v hp =>
      simp only [ProtoInv, hp] at hinv
      obtain ⟨hsi, hr0, hph, hch, hds, hit, hct, hve⟩ := hinv
      exact Or.inr (Or.inr ⟨hph, rfl, rfl,
        Or.inl ⟨si, t, v, hp, hct.symm, hve.symm⟩⟩)
    | p_resetLater si r t hp hr0 =>
      simp only [ProtoInv, hp] at hinv
      obtain ⟨hsi, hr, hph, hch, hds, hit, hct⟩ := hinv
      exact Or.inr (Or.inr ⟨hph, rfl, rfl,
        Or.inr ⟨si, r, t, hp, hr0, hct.symm⟩⟩)
    | p_finalPost hp =>
      simp only [ProtoInv, hp] at hinv
      exact Or.inl ⟨hinv.1, rfl, rfl, Or.inr ⟨hp, hinv.2.2⟩⟩
    | p_join hp hex => exact absurd rfl hne
    | c_receive hc hph => exact absurd rfl hne
    | c_exit hc => exact absurd rfl hne
    | c_writeTime sz t hc hsz => exact absurd rfl hne
    | c_writeVerify sz t v hc => exact absurd rfl hne
    | c_respond sz t v hc =>
      cases hps : s.parent with
      | sizeCheck si =>
        simp only [ProtoInv, hps] at hinv
        rw [hinv.2.2] at hc
        simp at hc
      | startCycle si r =>
        simp only [ProtoInv, hps] at hinv
        rw [hinv.2.2.2] at hc
        simp at hc
      | wroteSize si r =>
        simp only [ProtoInv, hps] at hinv
        rw [hinv.2.2.2.1] at hc
        simp at hc
      | wroteIter si r =>
        simp only [ProtoInv, hps] at hinv
        rw [hinv.2.2.2.1] at hc
        simp at hc
      | posted si r =>
        simp only [ProtoInv, hps] at hinv
        obtain ⟨hsi, hr, hds, hit, hci⟩ := hinv
        simp only [ChildInv, hc] at hci
        exact Or.inr (Or.inl ⟨hci.1, rfl, rfl,
          sz, t, v, hc, hci.2.2.1, hci.2.2.2⟩)
      | readTime si r t2 =>
        simp only [ProtoInv, hps] at hinv
        rw [hinv.2.2.2.1] at hc
        simp at hc
      | readVerify si r t2 v2 =>
        simp only [ProtoInv, hps] at hinv
        rw [hinv.2.2.2.1] at hc
        simp at hc
      | finalSize =>
        simp only [ProtoInv, hps] at hinv
        rw [hinv.2.1] at hc
        simp at hc
      | finalPosted =>
        simp only [ProtoInv, hps] at hinv
        rcases hinv.2.2 with h | h | h
        · rw [h] at hc; simp at hc
        · rw [h] at hc; simp at hc
        · rw [h] at hc; simp at hc
      | joined =>
        simp only [ProtoInv, hps] at hinv
        rw [hinv.2.2] at hc
        simp at hc

/-- Witness for C1 (amended): the theorem applied at the (trivially
reachable) initial state, whose phase is IDLE. -/
theorem shm_phase_protocol_witness :
    Reach initSys ∧
    (initSys.ctrl.phase = 0 ∨ initSys.ctrl.phase = 1 ∨ initSys.ctrl.phase = 2) :=
  ⟨Relation.ReflTransGen.refl,
   ((shm_phase_protocol initSys Relation.ReflTransGen.refl).1).1⟩

/-- Counterexample to claim C1 as stated: there is a reachable transition
resetting phase from RESPONSE_POSTED to IDLE taken at repeat index 1 from
the location that read only copy_time; the parent location is not a
verify_err-reading location, so the reset happens without reading
verify_err in that cycle (the r == 0 guard of shm_bench.c line 138 skipped
the read). -/
theorem shm_phase_protocol_cex :
    Reach ⟨⟨2, 4096, 1, 0, 0⟩, PLoc.readTime 0 1 0, CLoc.waiting⟩ ∧
    Step ⟨⟨2, 4096, 1, 0, 0⟩, PLoc.readTime 0 1 0, CLoc.waiting⟩
      ⟨⟨0, 4096, 1, 0, 0⟩, PLoc.startCycle 0 2, CLoc.waiting⟩ ∧
    (⟨⟨2, 4096, 1, 0, 0⟩, PLoc.readTime 0 1 0, CLoc.waiting⟩ : Sys).ctrl.phase
      = 2 ∧
    (⟨⟨0, 4096, 1, 0, 0⟩, PLoc.startCycle 0 2, CLoc.waiting⟩ : Sys).ctrl.phase
      = 0 ∧
    isVerifyRead
      (⟨⟨2, 4096, 1, 0, 0⟩, PLoc.readTime 0 1 0, CLoc.waiting⟩ : Sys).parent
      = false := by
  refine ⟨?_, ?_, rfl, rfl, rfl⟩
  · refine Relation.ReflTransGen.head
      (Step.p_enterSize initSys 0 rfl (by decide) (by decide)) ?_
    refine Relation.ReflTransGen.trans (reach_cycle _ 0 0 (by decide) rfl rfl) ?_
    exact reach_readTime _ 0 1 (by decide) rfl rfl
  · exact Step.p_resetLater _ 0 1 0 rfl (by decide)

/- ========== termination of the protocol (C4) ========== -/

lemma finalInv_step (s s' : Sys) (h : FinalSysInv s) (st : Step s s') :
    FinalSysInv s' ∧ s'.ctrl = s.ctrl := by
  obtain ⟨hpar, hph, hds, hchd⟩ := h
  cases st with
  | p_enterSize si hp hsi hsz =>
    rcases hpar with h | h <;> (rw [h] at hp; simp at hp)
  | p_breakSize si hp hsi hgt =>
    rcases hpar with h | h <;> (rw [h] at hp; simp at hp)
  | p_exitSize si hp heq =>
    rcases hpar with h | h <;> (rw [h] at hp; simp at hp)
  | p_writeSize si r hp =>
    rcases hpar with h | h <;> (rw [h] at hp; simp at hp)
  | p_writeIter si r hp =>
    rcases hpar with h | h <;> (rw [h] at hp; simp at hp)
  | p_post si r hp =>
    rcases hpar with h | h <;> (rw [h] at hp; simp at hp)
  | p_readTime si r hp hph2 =>
    rcases hpar with h | h <;> (rw [h] at hp; simp at hp)
  | p_readVerify si t hp =>
    rcases hpar with h | h <;> (rw [h] at hp; simp at hp)
  | p_reset0 si t v hp =>
    rcases hpar with h | h <;> (rw [h] at hp; simp at hp)
  | p_resetLater si r t hp hr0 =>
    rcases hpar with h | h <;> (rw [h] at hp; simp at hp)
  | p_finalPost hp =>
    rcases hpar with h | h <;> (rw [h] at hp; simp at hp)
  | p_join hp hex =>
    exact ⟨⟨Or.inr rfl, hph, hds, hchd⟩, rfl⟩
  | c_receive hc hph1 =>
    exact ⟨⟨hpar, hph, hds, Or.inr (Or.inl (congrArg CLoc.gotSize hds))⟩, rfl⟩
  | c_exit hc =>
    exact ⟨⟨hpar, hph, hds, Or.inr (Or.inr rfl)⟩, rfl⟩
  | c_writeTime sz t hc hsz =>
    rcases hchd with h | h | h
    · rw [h] at hc; simp at hc
    · rw [h] at hc
      simp at hc
      exact absurd hc.symm hsz
    · rw [h] at hc; simp at hc
  | c_writeVerify sz t v hc =>
    rcases hchd with h | h | h <;> (rw [h] at hc; simp at hc)
  | c_respond sz t v hc =>
    rcases hchd with h | h | h <;> (rw [h] at hc; simp at hc)

lemma finalInv_reachFrom (s : Sys) (h : FinalSysInv s) :
    ∀ s', Relation.ReflTransGen Step s s' → FinalSysInv s' ∧ s'.ctrl = s.ctrl := by
  intro s' hr
  induction hr with
  | refl => exact ⟨h, rfl⟩
  | tail hr1 st ih =>
    obtain ⟨hf, hcs⟩ := ih
    obtain ⟨hf2, hcs2⟩ := finalInv_step _ _ hf st
    exact ⟨hf2, hcs2.trans hcs⟩

/-- Claim C4: from any reachable state where the requester has posted the
final cycle (size 0, phase REQUEST_POSTED): the posted fields are exactly
those; the phase stays REQUEST_POSTED forever after (the responder never
posts another response); upon observing the size 0 request the responder
can only exit, touching nothing; the only parent move left is the join,
which fires only once the child has exited and changes no control state;
and an execution reaching the joined/exited final configuration exists. -/
theorem shm_termination :
    ∀ s, Reach s → s.parent = PLoc.finalPosted →
      (s.ctrl.data_size = 0 ∧ s.ctrl.phase = 1) ∧
      (∀ s', Relation.ReflTransGen Step s s' → s'.ctrl.phase = 1) ∧
      (∀ s' s'', Relation.ReflTransGen Step s s' → s'.child = CLoc.gotSize 0 →
        Step s' s'' → s''.child = CLoc.exited ∧ s''.ctrl = s'.ctrl) ∧
      (∀ s' s'', Relation.ReflTransGen Step s s' → Step s' s'' →
        s''.parent ≠ s'.parent →
        s'.parent = PLoc.finalPosted ∧ s''.parent = PLoc.joined ∧
        s'.child = CLoc.exited ∧ s''.ctrl = s'.ctrl) ∧
      (∃ s', Relation.ReflTransGen Step s s' ∧ s'.parent = PLoc.joined ∧
        s'.child = CLoc.exited ∧ s'.ctrl.phase = 1) := by
  intro s hre hp
  have hinv := inv_reach s hre
  simp only [ProtoInv, hp] at hinv
  obtain ⟨hph, hds, hchd⟩ := hinv
  have hfin : FinalSysInv s := ⟨Or.inl hp, hph, hds, hchd⟩
  refine ⟨⟨hds, hph⟩, ?_, ?_, ?_, ?_⟩
  · intro s' hr
    obtain ⟨⟨_, hph', _, _⟩, _⟩ := finalInv_reachFrom s hfin s' hr
    exact hph'
  · intro s' s'' hr hgz st
    obtain ⟨⟨hpar', hph', hds', hchd'⟩, hctl⟩ := finalInv_reachFrom s hfin s' hr
    cases st with
    | c_exit hc => exact ⟨rfl, rfl⟩
    | c_receive hc hph1 => rw [hgz] at hc; simp at hc
    | c_writeTime sz t hc hsz =>
      rw [hgz] at hc
      simp at hc
      exact absurd hc.symm hsz
    | c_writeVerify sz t v hc => rw [hgz] at hc; simp at hc
    | c_respond sz t v hc => rw [hgz] at hc; simp at hc
    | p_join hpj hex => rw [hgz] at hex; simp at hex
    | p_enterSize si hpp hsi hsz =>
      rcases hpar' with h | h <;> (rw [h] at hpp; simp at hpp)
    | p_breakSize si hpp hsi hgt =>
      rcases hpar' with h | h <;> (rw [h] at hpp; simp at hpp)
    | p_exitSize si hpp heq =>
      rcases hpar' with h | h <;> (rw [h] at hpp; simp at hpp)
    | p_writeSize si r hpp =>
      rcases hpar' with h | h <;> (rw [h] at hpp; simp at hpp)
    | p_writeIter si r hpp =>
      rcases hpar' with h | h <;> (rw [h] at hpp; simp at hpp)
    | p_post si r hpp =>
      rcases hpar' with h | h <;> (rw [h] at hpp; simp at hpp)
    | p_readTime si r hpp hph2 =>
      rcases hpar' with h | h <;> (rw [h] at hpp; simp at hpp)
    | p_readVerify si t hpp =>
      rcases hpar' with h | h <;> (rw [h] at hpp; simp at hpp)
    | p_reset0 si t v hpp =>
      rcases hpar' with h | h <;> (rw [h] at hpp; simp at hpp)
    | p_resetLater si r t hpp hr0 =>
      rcases hpar' with h | h <;> (rw [h] at hpp; simp at hpp)
    | p_finalPost hpp =>
      rcases hpar' with h | h <;> (rw [h] at hpp; simp at hpp)
  · intro s' s'' hr st hnep
    obtain ⟨⟨hpar', hph', hds', hchd'⟩, hctl⟩ := finalInv_reachFrom s hfin s' hr
    cases st with
    | p_join hpj hex => exact ⟨hpj, rfl, hex, rfl⟩
    | c_receive hc hph1 => exact absurd rfl hnep
    | c_exit hc => exact absurd rfl hnep
    | c_writeTime sz t hc hsz => exact absurd rfl hnep
    | c_writeVerify sz t v hc => exact absurd rfl hnep
    | c_respond sz t v hc => exact absurd rfl hnep
    | p_enterSize si hpp hsi hsz =>
      rcases hpar' with h | h <;> (rw [h] at hpp; simp at hpp)
    | p_breakSize si hpp hsi hgt =>
      rcases hpar' with h | h <;> (rw [h] at hpp; simp at hpp)
    | p_exitSize si hpp heq =>
      rcases hpar' with h | h <;> (rw [h] at hpp; simp at hpp)
    | p_writeSize si r hpp =>
      rcases hpar' with h | h <;> (rw [h] at hpp; simp at hpp)
    | p_writeIter si r hpp =>
      rcases hpar' with h | h <;> (rw [h] at hpp; simp at hpp)
    | p_post si r hpp =>
      rcases hpar' with h | h <;> (rw [h] at hpp; simp at hpp)
    | p_readTime si r hpp hph2 =>
      rcases hpar' with h | h <;> (rw [h] at hpp; simp at hpp)
    | p_readVerify si t hpp =>
      rcases hpar' with h | h <;> (rw [h] at hpp; simp at hpp)
    | p_reset0 si t v hpp =>
      rcases hpar' with h | h <;> (rw [h] at hpp; simp at hpp)
    | p_resetLater si r t hpp hr0 =>
      rcases hpar' with h | h <;> (rw [h] at hpp; simp at hpp)
    | p_finalPost hpp =>
      rcases hpar' with h | h <;> (rw [h] at hpp; simp at hpp)
  · rcases hchd with hcw | hcg | hce
    · refine ⟨{ s with parent := PLoc.joined, child := CLoc.exited },
        ?_, rfl, rfl, hph⟩
      refine .head (Step.c_receive s hcw hph) ?_
      refine .head (Step.c_exit _ (congrArg CLoc.gotSize hds)) ?_
      refine .head (Step.p_join _ hp rfl) ?_
      exact .refl
    · refine ⟨{ s with parent := PLoc.joined, child := CLoc.exited },
        ?_, rfl, rfl, hph⟩
      refine .head (Step.c_exit s hcg) ?_
      refine .head (Step.p_join _ hp rfl) ?_
      exact .refl
    · refine ⟨{ s with parent := PLoc.joined }, ?_, rfl, hce, hph⟩
      exact .head (Step.p_join s hp hce) .refl

/-- Witness for C4: the concrete reachable state just after the final post
has data_size 0 and phase REQUEST_POSTED. -/
theorem shm_termination_witness :
    Reach finalPostState ∧
    (finalPostState.ctrl.data_size = 0 ∧ finalPostState.ctrl.phase = 1) :=
  ⟨reach_finalPost, (shm_termination finalPostState reach_finalPost rfl).1⟩
